import Mathlib

/-!
Shallow embedding of `password-hash/src/value.rs`: the PHC string format
parameter `Value` type, its constructor, accessors, decimal interpreter,
conversion entry points and derived ordering.  Rust `&str` data is modelled
as `List Char` (Unicode scalar values, exactly Rust `char`), with the UTF-8
byte length modelled explicitly where the source counts bytes.
-/

namespace PasswordHash

/-- Modelled from the spec: the error-kind collaborator consumed by the core,
an enumeration with the variants `TooLong`, `Empty` and `InvalidChar(c)`
(`ParseError` is defined outside this source file; the core only produces
these three kinds). -/
inductive ParseError where
  | TooLong : ParseError
  | Empty : ParseError
  | InvalidChar : Char → ParseError
deriving DecidableEq, Repr

/-- `type Decimal = u32`: the decimal interpretation type; every value the
core produces is below `2 ^ 32`. -/
abbrev Decimal := Nat

instance {ε α : Type} [DecidableEq ε] [DecidableEq α] : DecidableEq (Except ε α) := fun x y =>
  match x, y with
  | .ok a, .ok b =>
    if h : a = b then .isTrue (by rw [h])
    else .isFalse (by intro hc; cases hc; exact h rfl)
  | .error e, .error f =>
    if h : e = f then .isTrue (by rw [h])
    else .isFalse (by intro hc; cases hc; exact h rfl)
  | .ok _, .error _ => .isFalse (by intro hc; cases hc)
  | .error _, .ok _ => .isFalse (by intro hc; cases hc)

/-- UTF-8 encoding of a Unicode scalar value (given as `Nat`), as in Rust
`char::encode_utf8`; used to model `str::len` (a byte count in Rust) and the
byte-wise ordering of `str`. -/
def utf8EncodeChar (n : Nat) : List Nat :=
  if n < 128 then [n]
  else if n < 2048 then [192 + n / 64, 128 + n % 64]
  else if n < 65536 then [224 + n / 4096, 128 + (n / 64) % 64, 128 + n % 64]
  else [240 + n / 262144, 128 + (n / 4096) % 64, 128 + (n / 64) % 64, 128 + n % 64]

/-- The UTF-8 bytes of a string (Rust `str::as_bytes`). -/
def utf8Bytes : List Char → List Nat
  | [] => []
  | c :: rest => utf8EncodeChar c.toNat ++ utf8Bytes rest

/-- Rust `str::len`: the length in UTF-8 bytes. -/
def byteLen (s : List Char) : Nat := (utf8Bytes s).length

/-- `is_char_valid`: is the given character allowed in a `Value`?
Source: `matches!(c, 'A' ..= 'Z' | 'a'..='z' | '0'..='9' | '/' | '+' | '.' | '-')`. -/
def is_char_valid (c : Char) : Bool :=
  decide (('A' ≤ c ∧ c ≤ 'Z') ∨ ('a' ≤ c ∧ c ≤ 'z') ∨ ('0' ≤ c ∧ c ≤ '9') ∨
    c = '/' ∨ c = '+' ∨ c = '.' ∨ c = '-')

/-- `assert_valid_value`: scan the characters left to right, reporting the
first one not allowed in a `Value` as `InvalidChar`. -/
def assert_valid_value : List Char → Except ParseError Unit
  | [] => .ok ()
  | c :: rest =>
    if is_char_valid c then assert_valid_value rest
    else .error (.InvalidChar c)

/-- `Value`: algorithm parameter value string.  The source type is a borrowed
`&str` wrapper; it is modelled by its character content. -/
structure Value where
  text : List Char
deriving DecidableEq, Repr

/-- `Value::MAX_LENGTH`: 48 ASCII characters (i.e. 48 bytes). -/
def Value.MAX_LENGTH : Nat := 48

/-- `Value::new`: the byte-length check comes first, then the character
validation via `assert_valid_value`; on success the `Value` wraps exactly the
input text. -/
def Value.new (input : List Char) : Except ParseError Value :=
  if byteLen input > Value.MAX_LENGTH then .error .TooLong
  else
    match assert_valid_value input with
    | .error e => .error e
    | .ok _ => .ok ⟨input⟩

/-- `Value::as_str`: borrow the underlying text. -/
def Value.as_str (v : Value) : List Char := v.text

/-- `Value::as_bytes`: the underlying text as bytes. -/
def Value.as_bytes (v : Value) : List Nat := utf8Bytes v.as_str

/-- `Value::len`: length in bytes. -/
def Value.len (v : Value) : Nat := byteLen v.as_str

/-- `Value::is_empty`. -/
def Value.is_empty (v : Value) : Bool := decide (v.as_str = [])

/-- `impl fmt::Display for Value`: `f.write_str(self.as_str())`, so the
rendered text is exactly the underlying text, with no escaping or quoting. -/
def Value.display (v : Value) : List Char := v.as_str

/-- The digit test of `Value::decimal`: `matches!(c, '0'..='9')`. -/
def is_digit_char (c : Char) : Bool := decide ('0' ≤ c ∧ c ≤ '9')

/-- The `for c in value.chars()` scan of `Value::decimal`: the first
non-digit character in left-to-right order, if any. -/
def firstNonDigit : List Char → Option Char
  | [] => none
  | c :: rest => if is_digit_char c then firstNonDigit rest else some c

/-- Numeric denotation of a digit string, most significant digit first.  On
non-empty all-digit text, Rust `str::parse::<u32>` succeeds exactly when this
value fits in 32 unsigned bits, and then returns it. -/
def digitsToNat (s : List Char) : Nat :=
  s.foldl (fun acc c => acc * 10 + (c.toNat - 48)) 0

/-- `Value::decimal`: reject empty text with `Empty`; reject the first
non-digit with `InvalidChar`; reject a leading zero on text longer than one
byte with `InvalidChar('0')`; then `value.parse::<u32>()`, whose only failure
on all-digit text is overflow, mapped to `TooLong`. -/
def Value.decimal (v : Value) : Except ParseError Decimal :=
  let value := v.as_str
  if value = [] then .error .Empty
  else
    match firstNonDigit value with
    | some c => .error (.InvalidChar c)
    | none =>
      if value.head? = some '0' ∧ 1 < byteLen value then .error (.InvalidChar '0')
      else if digitsToNat value < 4294967296 then .ok (digitsToNat value)
      else .error .TooLong

/-- `Value::is_decimal`: `self.decimal().is_ok()`. -/
def Value.is_decimal (v : Value) : Bool :=
  match v.decimal with
  | .ok _ => true
  | .error _ => false

/-- `impl TryFrom<&'a str> for Value<'a>`: delegates to `Value::new`. -/
def Value.try_from (input : List Char) : Except ParseError Value :=
  Value.new input

/-- `impl TryFrom<&Value<'a>> for Decimal`: delegates to `Value::decimal`. -/
def Decimal.try_from_value_ref (v : Value) : Except ParseError Decimal :=
  v.decimal

/-- `impl TryFrom<Value<'a>> for Decimal`: delegates to the by-reference
conversion. -/
def Decimal.try_from_value (v : Value) : Except ParseError Decimal :=
  Decimal.try_from_value_ref v

/-- Lexicographic comparison of byte sequences: the comparison Rust's derived
`Ord` performs on the single `&str` field (`str`'s order is the order of its
UTF-8 bytes). -/
def bytesLexCompare : List Nat → List Nat → Ordering
  | [], [] => .eq
  | [], _ :: _ => .lt
  | _ :: _, [] => .gt
  | a :: l₁, b :: l₂ =>
    if a < b then .lt
    else if b < a then .gt
    else bytesLexCompare l₁ l₂

/-- The `derive(PartialOrd, Ord)` comparison on `Value`: field-wise, i.e. the
byte-wise lexicographic comparison of the underlying texts. -/
def Value.cmp (v w : Value) : Ordering :=
  bytesLexCompare (utf8Bytes v.as_str) (utf8Bytes w.as_str)

lemma char_toNat_inj {a b : Char} (h : a.toNat = b.toNat) : a = b :=
  Char.ext (UInt32.ext h)

lemma char_toNat_lt (c : Char) : c.toNat < 1114112 := by
  rcases c.valid with h | ⟨h1, h2⟩
  · exact Nat.lt_trans h (by norm_num)
  · exact h2

lemma assert_valid_value_ok_iff (s : List Char) :
    assert_valid_value s = .ok () ↔ ∀ c ∈ s, is_char_valid c = true := by
  induction s with
  | nil => simp [assert_valid_value]
  | cons c rest ih =>
    by_cases h : is_char_valid c = true
    · simp [assert_valid_value, h, ih]
    · simp [assert_valid_value, h]

lemma assert_valid_value_first_error (pre : List Char) (c : Char) (suf : List Char)
    (hpre : ∀ b ∈ pre, is_char_valid b = true) (hc : is_char_valid c = false) :
    assert_valid_value (pre ++ c :: suf) = .error (.InvalidChar c) := by
  induction pre with
  | nil => simp [assert_valid_value, hc]
  | cons b rest ih =>
    have hb : is_char_valid b = true := hpre b (by simp)
    simp only [List.cons_append, assert_valid_value, hb, if_true]
    exact ih (fun x hx => hpre x (by simp [hx]))

lemma value_new_ok_elim {input : List Char} {v : Value}
    (h : Value.new input = .ok v) :
    v = ⟨input⟩ ∧ byteLen input ≤ 48 ∧ ∀ c ∈ input, is_char_valid c = true := by
  unfold Value.new at h
  split at h
  · cases h
  · rename_i hlen
    split at h
    · cases h
    · rename_i u heq
      cases h
      refine ⟨rfl, by unfold Value.MAX_LENGTH at hlen; omega, ?_⟩
      exact (assert_valid_value_ok_iff input).mp (by cases u; exact heq)

lemma value_new_ok_intro {input : List Char}
    (hlen : byteLen input ≤ 48) (hval : ∀ c ∈ input, is_char_valid c = true) :
    Value.new input = .ok ⟨input⟩ := by
  unfold Value.new
  rw [if_neg (by unfold Value.MAX_LENGTH; omega)]
  rw [(assert_valid_value_ok_iff input).mpr hval]

/-- C1: `Value::new(input)` succeeds iff the input's byte length is at most
48 and every character is in the allowed alphabet; on success the resulting
`Value`'s `as_str` and its `Display` rendering are exactly the input text. -/
theorem value_new_correct (input : List Char) :
    ((∃ v, Value.new input = .ok v) ↔
      byteLen input ≤ 48 ∧ ∀ c ∈ input, is_char_valid c = true) ∧
    ∀ v, Value.new input = .ok v → v.as_str = input ∧ v.display = input := by
  constructor
  · constructor
    · rintro ⟨v, hv⟩
      exact (value_new_ok_elim hv).2
    · rintro ⟨hlen, hval⟩
      exact ⟨⟨input⟩, value_new_ok_intro hlen hval⟩
  · intro v hv
    rcases value_new_ok_elim hv with ⟨rfl, -, -⟩
    exact ⟨rfl, rfl⟩

theorem value_new_correct_witness :
    ∃ v, Value.new ['a', '+', 'b', '.', 'c', '-', 'd'] = .ok v :=
  (value_new_correct ['a', '+', 'b', '.', 'c', '-', 'd']).1.mpr (by decide)

/-- C2: `Value::new` reports `TooLong` whenever the byte length exceeds 48,
regardless of character validity (length is checked first); within bounds,
it reports `InvalidChar(c)` for the first offending character in
left-to-right order. -/
theorem value_new_error_order (input : List Char) :
    (48 < byteLen input → Value.new input = .error .TooLong) ∧
    (byteLen input ≤ 48 →
      ∀ pre c suf, input = pre ++ c :: suf →
        (∀ b ∈ pre, is_char_valid b = true) → is_char_valid c = false →
        Value.new input = .error (.InvalidChar c)) := by
  constructor
  · intro h
    unfold Value.new
    rw [if_pos (by unfold Value.MAX_LENGTH; omega)]
  · intro hlen pre c suf hsplit hpre hc
    unfold Value.new
    rw [if_neg (by unfold Value.MAX_LENGTH; omega), hsplit,
      assert_valid_value_first_error pre c suf hpre hc]

theorem value_new_error_order_witness :
    Value.new (List.replicate 49 ';') = .error .TooLong ∧
    Value.new ['x', ';', 'y'] = .error (.InvalidChar ';') := by
  constructor
  · exact (value_new_error_order (List.replicate 49 ';')).1 (by decide)
  · exact (value_new_error_order ['x', ';', 'y']).2 (by decide) ['x'] ';' ['y']
      (by decide) (by decide) (by decide)

/-- C7: `decimal()` on the empty text fails with `Empty`, even though the
empty text itself is a legal `Value` that construction accepts. -/
theorem decimal_empty_vs_construction :
    Value.decimal ⟨[]⟩ = .error .Empty ∧ Value.new [] = .ok ⟨[]⟩ := by decide

/-- C8: `is_decimal()` is true exactly when `decimal()` succeeds. -/
theorem is_decimal_iff_decimal_ok (v : Value) :
    v.is_decimal = true ↔ ∃ n, v.decimal = .ok n := by
  unfold Value.is_decimal
  cases h : v.decimal <;> simp

theorem is_decimal_iff_decimal_ok_witness :
    Value.is_decimal ⟨['7']⟩ = true :=
  (is_decimal_iff_decimal_ok ⟨['7']⟩).mpr ⟨7, by decide⟩

/-- C9: `TryFrom` on text coincides with `Value::new`, and `TryFrom` on a
`Value` (by value and by reference) coincides with `decimal()`. -/
theorem conversion_delegation (input : List Char) (v : Value) :
    Value.try_from input = Value.new input ∧
    Decimal.try_from_value v = v.decimal ∧
    Decimal.try_from_value_ref v = v.decimal :=
  ⟨rfl, rfl, rfl⟩

theorem conversion_delegation_witness :
    Value.try_from ['1'] = Value.new ['1'] :=
  (conversion_delegation ['1'] ⟨['1']⟩).1

lemma firstNonDigit_none_iff (s : List Char) :
    firstNonDigit s = none ↔ ∀ c ∈ s, is_digit_char c = true := by
  induction s with
  | nil => simp [firstNonDigit]
  | cons c rest ih =>
    by_cases h : is_digit_char c = true
    · simp [firstNonDigit, h, ih]
    · simp [firstNonDigit, h]

lemma firstNonDigit_first (pre : List Char) (c : Char) (suf : List Char)
    (hpre : ∀ b ∈ pre, is_digit_char b = true) (hc : is_digit_char c = false) :
    firstNonDigit (pre ++ c :: suf) = some c := by
  induction pre with
  | nil => simp [firstNonDigit, hc]
  | cons b rest ih =>
    have hb : is_digit_char b = true := hpre b (by simp)
    simp only [List.cons_append, firstNonDigit, hb, if_true]
    exact ih (fun x hx => hpre x (by simp [hx]))

lemma utf8EncodeChar_ascii {n : Nat} (h : n < 128) : utf8EncodeChar n = [n] := by
  unfold utf8EncodeChar
  rw [if_pos h]

lemma byteLen_of_digits {s : List Char} (h : ∀ c ∈ s, is_digit_char c = true) :
    byteLen s = s.length := by
  induction s with
  | nil => rfl
  | cons c rest ih =>
    have hc : ('0' ≤ c ∧ c ≤ '9') := of_decide_eq_true (h c (by simp))
    have h128 : c.toNat < 128 := by
      have h57 : c.toNat ≤ 57 := hc.2
      omega
    have hrest := ih (fun x hx => h x (by simp [hx]))
    simp only [byteLen, utf8Bytes] at hrest ⊢
    rw [utf8EncodeChar_ascii h128]
    simp only [List.length_append, List.length_cons, List.length_nil]
    omega

lemma decimal_eq_of_digits {v : Value}
    (hne : v.as_str ≠ [])
    (hdig : ∀ c ∈ v.as_str, is_digit_char c = true)
    (hlz : v.as_str.head? = some '0' → v.as_str = ['0']) :
    v.decimal = if digitsToNat v.as_str < 4294967296
      then .ok (digitsToNat v.as_str) else .error .TooLong := by
  have hcond : ¬(v.as_str.head? = some '0' ∧ 1 < byteLen v.as_str) := by
    rintro ⟨h0, hlen⟩
    rw [hlz h0] at hlen
    exact absurd hlen (by decide)
  simp only [Value.decimal]
  rw [if_neg hne, (firstNonDigit_none_iff v.as_str).mpr hdig]
  rw [if_neg hcond]

/-- C3: on non-empty all-digit text with no disallowed leading zero whose
value fits in 32 unsigned bits, `decimal()` succeeds with the numerically
equal value. -/
theorem decimal_success (v : Value)
    (hne : v.as_str ≠ [])
    (hdig : ∀ c ∈ v.as_str, is_digit_char c = true)
    (hlz : v.as_str.head? = some '0' → v.as_str = ['0'])
    (hrange : digitsToNat v.as_str < 2 ^ 32) :
    v.decimal = .ok (digitsToNat v.as_str) := by
  rw [decimal_eq_of_digits hne hdig hlz, if_pos (by norm_num at hrange ⊢; exact hrange)]

theorem decimal_success_witness :
    Value.decimal ⟨['4', '2', '9', '4', '9', '6', '7', '2', '9', '5']⟩ = .ok 4294967295 := by
  rw [decimal_success ⟨['4', '2', '9', '4', '9', '6', '7', '2', '9', '5']⟩
    (by decide) (by decide) (by decide) (by decide)]
  decide

/-- C4: on non-empty all-digit text with no disallowed leading zero whose
value exceeds the unsigned 32-bit maximum, `decimal()` fails with `TooLong`
(the same kind used for over-length construction). -/
theorem decimal_overflow (v : Value)
    (hne : v.as_str ≠ [])
    (hdig : ∀ c ∈ v.as_str, is_digit_char c = true)
    (hlz : v.as_str.head? = some '0' → v.as_str = ['0'])
    (hrange : 2 ^ 32 ≤ digitsToNat v.as_str) :
    v.decimal = .error .TooLong := by
  rw [decimal_eq_of_digits hne hdig hlz, if_neg (by norm_num at hrange ⊢; omega)]

theorem decimal_overflow_witness :
    Value.decimal ⟨['4', '2', '9', '4', '9', '6', '7', '2', '9', '6']⟩ = .error .TooLong :=
  decimal_overflow ⟨['4', '2', '9', '4', '9', '6', '7', '2', '9', '6']⟩
    (by decide) (by decide) (by decide) (by decide)

/-- C5: all-digit text longer than one character starting with `'0'` makes
`decimal()` fail with `InvalidChar('0')`; the single-character text `"0"` is
exempt and decodes to `0`. -/
theorem decimal_leading_zero :
    (∀ v : Value, 1 < v.as_str.length →
      (∀ c ∈ v.as_str, is_digit_char c = true) →
      v.as_str.head? = some '0' →
      v.decimal = .error (.InvalidChar '0')) ∧
    Value.decimal ⟨['0']⟩ = .ok 0 := by
  constructor
  · intro v hlen hdig h0
    have hne : v.as_str ≠ [] := by
      intro h
      rw [h] at hlen
      simp at hlen
    simp only [Value.decimal]
    rw [if_neg hne, (firstNonDigit_none_iff v.as_str).mpr hdig]
    rw [if_pos ⟨h0, by rw [byteLen_of_digits hdig]; exact hlen⟩]
  · decide

theorem decimal_leading_zero_witness :
    Value.decimal ⟨['0', '1']⟩ = .error (.InvalidChar '0') :=
  decimal_leading_zero.1 ⟨['0', '1']⟩ (by decide) (by decide) (by decide)

/-- C6: on non-empty text containing a non-digit, `decimal()` fails with
`InvalidChar(c)` where `c` is the first non-digit in scan order. -/
theorem decimal_first_nondigit (v : Value) (pre : List Char) (c : Char) (suf : List Char)
    (hsplit : v.as_str = pre ++ c :: suf)
    (hpre : ∀ b ∈ pre, is_digit_char b = true)
    (hc : is_digit_char c = false) :
    v.decimal = .error (.InvalidChar c) := by
  have hne : v.as_str ≠ [] := by
    rw [hsplit]
    simp
  simp only [Value.decimal]
  rw [if_neg hne, hsplit, firstNonDigit_first pre c suf hpre hc]

theorem decimal_first_nondigit_witness :
    Value.decimal ⟨['-', '1']⟩ = .error (.InvalidChar '-') :=
  decimal_first_nondigit ⟨['-', '1']⟩ [] '-' ['1'] rfl (by decide) (by decide)

/-- Length of a UTF-8 unit as determined by its leading byte. -/
def utf8LeadSize (b : Nat) : Nat :=
  if b < 128 then 1 else if b < 224 then 2 else if b < 240 then 3 else 4

lemma utf8EncodeChar_ne_nil (n : Nat) : utf8EncodeChar n ≠ [] := by
  unfold utf8EncodeChar
  split_ifs <;> simp

lemma utf8EncodeChar_length_eq (n : Nat) (h : n < 1114112) :
    (utf8EncodeChar n).length = utf8LeadSize ((utf8EncodeChar n).headD 0) := by
  by_cases h1 : n < 128
  · rw [utf8EncodeChar_ascii h1]
    simp only [List.headD_cons, List.length_cons, List.length_nil]
    unfold utf8LeadSize
    rw [if_pos h1]
  · by_cases h2 : n < 2048
    · have he : utf8EncodeChar n = [192 + n / 64, 128 + n % 64] := by
        unfold utf8EncodeChar
        rw [if_neg h1, if_pos h2]
      rw [he]
      simp only [List.headD_cons, List.length_cons, List.length_nil]
      unfold utf8LeadSize
      rw [if_neg (by omega), if_pos (by omega)]
    · by_cases h3 : n < 65536
      · have he : utf8EncodeChar n = [224 + n / 4096, 128 + (n / 64) % 64, 128 + n % 64] := by
          unfold utf8EncodeChar
          rw [if_neg h1, if_neg h2, if_pos h3]
        rw [he]
        simp only [List.headD_cons, List.length_cons, List.length_nil]
        unfold utf8LeadSize
        rw [if_neg (by omega), if_neg (by omega), if_pos (by omega)]
      · have he : utf8EncodeChar n =
            [240 + n / 262144, 128 + (n / 4096) % 64, 128 + (n / 64) % 64, 128 + n % 64] := by
          unfold utf8EncodeChar
          rw [if_neg h1, if_neg h2, if_neg h3]
        rw [he]
        simp only [List.headD_cons, List.length_cons, List.length_nil]
        unfold utf8LeadSize
        rw [if_neg (by omega), if_neg (by omega), if_neg (by omega)]

lemma utf8EncodeChar_inj {n m : Nat} (hn : n < 1114112) (hm : m < 1114112)
    (h : utf8EncodeChar n = utf8EncodeChar m) : n = m := by
  unfold utf8EncodeChar at h
  split_ifs at h <;> simp at h <;> omega

lemma utf8EncodeChar_split {n m : Nat} {a b : List Nat} (hn : n < 1114112) (hm : m < 1114112)
    (h : utf8EncodeChar n ++ a = utf8EncodeChar m ++ b) :
    utf8EncodeChar n = utf8EncodeChar m ∧ a = b := by
  obtain ⟨x, xs, c1⟩ : ∃ x xs, utf8EncodeChar n = x :: xs := by
    cases e : utf8EncodeChar n with
    | nil => exact absurd e (utf8EncodeChar_ne_nil n)
    | cons z zs => exact ⟨z, zs, rfl⟩
  obtain ⟨y, ys, c2⟩ : ∃ y ys, utf8EncodeChar m = y :: ys := by
    cases e : utf8EncodeChar m with
    | nil => exact absurd e (utf8EncodeChar_ne_nil m)
    | cons z zs => exact ⟨z, zs, rfl⟩
  have e1 := utf8EncodeChar_length_eq n hn
  have e2 := utf8EncodeChar_length_eq m hm
  rw [c1] at h e1
  rw [c2] at h e2
  simp only [List.cons_append, List.cons.injEq] at h
  obtain ⟨hxy, htail⟩ := h
  subst hxy
  simp only [List.headD_cons, List.length_cons] at e1 e2
  have hlen : xs.length = ys.length := by omega
  obtain ⟨hxs, hab⟩ := List.append_inj htail hlen
  rw [c1, c2, hxs]
  exact ⟨rfl, hab⟩

lemma utf8Bytes_inj {s t : List Char} (h : utf8Bytes s = utf8Bytes t) : s = t := by
  induction s generalizing t with
  | nil =>
    cases t with
    | nil => rfl
    | cons d ds =>
      rw [utf8Bytes, utf8Bytes] at h
      obtain ⟨h1, -⟩ := List.append_eq_nil.mp h.symm
      exact absurd h1 (utf8EncodeChar_ne_nil _)
  | cons c cs ih =>
    cases t with
    | nil =>
      rw [utf8Bytes, utf8Bytes] at h
      obtain ⟨h1, -⟩ := List.append_eq_nil.mp h
      exact absurd h1 (utf8EncodeChar_ne_nil _)
    | cons d ds =>
      rw [utf8Bytes, utf8Bytes] at h
      obtain ⟨henc, htail⟩ :=
        utf8EncodeChar_split (char_toNat_lt c) (char_toNat_lt d) h
      rw [char_toNat_inj (utf8EncodeChar_inj (char_toNat_lt c) (char_toNat_lt d) henc),
        ih htail]

lemma bytesLexCompare_eq_iff (a b : List Nat) :
    bytesLexCompare a b = .eq ↔ a = b := by
  induction a generalizing b with
  | nil => cases b <;> simp [bytesLexCompare]
  | cons x l₁ ih =>
    cases b with
    | nil => simp [bytesLexCompare]
    | cons y l₂ =>
      rcases Nat.lt_trichotomy x y with h | h | h
      · simp only [bytesLexCompare, if_pos h]
        constructor
        · intro hc
          cases hc
        · rintro hc
          rw [List.cons.injEq] at hc
          omega
      · subst h
        simp [bytesLexCompare, Nat.lt_irrefl, ih]
      · simp only [bytesLexCompare, if_neg (Nat.lt_asymm h), if_pos h]
        constructor
        · intro hc
          cases hc
        · rintro hc
          rw [List.cons.injEq] at hc
          omega

lemma bytesLexCompare_lt_gt (a b : List Nat) :
    bytesLexCompare a b = .lt ↔ bytesLexCompare b a = .gt := by
  induction a generalizing b with
  | nil => cases b <;> simp [bytesLexCompare]
  | cons x l₁ ih =>
    cases b with
    | nil => simp [bytesLexCompare]
    | cons y l₂ =>
      rcases Nat.lt_trichotomy x y with h | h | h
      · simp [bytesLexCompare, if_pos h, if_neg (Nat.lt_asymm h)]
      · subst h
        simp [bytesLexCompare, Nat.lt_irrefl, ih]
      · simp [bytesLexCompare, if_neg (Nat.lt_asymm h), if_pos h]

lemma bytesLexCompare_lt_iff_lex (a b : List Nat) :
    bytesLexCompare a b = .lt ↔ List.Lex (· < ·) a b := by
  induction a generalizing b with
  | nil =>
    cases b with
    | nil =>
      simp only [bytesLexCompare]
      constructor
      · intro hc
        cases hc
      · intro hc
        exact absurd hc (List.Lex.not_nil_right _ _)
    | cons y l₂ =>
      simp only [bytesLexCompare]
      exact iff_of_true trivial List.Lex.nil
  | cons x l₁ ih =>
    cases b with
    | nil =>
      simp only [bytesLexCompare]
      constructor
      · intro hc
        cases hc
      · intro hc
        exact absurd hc (List.Lex.not_nil_right _ _)
    | cons y l₂ =>
      rcases Nat.lt_trichotomy x y with h | h | h
      · simp only [bytesLexCompare, if_pos h]
        exact iff_of_true trivial (List.Lex.rel h)
      · subst h
        simp only [bytesLexCompare, if_neg (Nat.lt_irrefl x)]
        rw [ih]
        constructor
        · exact List.Lex.cons
        · intro hc
          exact (List.Lex.cons_iff).mp hc
      · simp only [bytesLexCompare, if_neg (Nat.lt_asymm h), if_pos h]
        constructor
        · intro hc
          cases hc
        · intro hc
          cases hc with
          | cons h' => exact absurd h (Nat.lt_irrefl _)
          | rel h' => exact absurd h' (Nat.lt_asymm h)

lemma bytesLexCompare_trans {a b c : List Nat}
    (h1 : bytesLexCompare a b = .lt) (h2 : bytesLexCompare b c = .lt) :
    bytesLexCompare a c = .lt := by
  rw [bytesLexCompare_lt_iff_lex] at h1 h2 ⊢
  exact IsTrans.trans _ _ _ h1 h2

/-- C10: two `Value`s are equal exactly when their underlying texts are
equal; and the derived comparison is a strict total order on `Value`s that
agrees with the lexicographic (byte-wise) order of the underlying texts. -/
theorem value_eq_and_order (v w u : Value) :
    (v = w ↔ v.as_str = w.as_str) ∧
    (Value.cmp v w = .eq ↔ v = w) ∧
    (Value.cmp v w = .lt ↔ Value.cmp w v = .gt) ∧
    (Value.cmp v w = .lt → Value.cmp w u = .lt → Value.cmp v u = .lt) ∧
    (Value.cmp v w = .lt ↔ List.Lex (· < ·) (utf8Bytes v.as_str) (utf8Bytes w.as_str)) := by
  have text_iff : v = w ↔ v.as_str = w.as_str := by
    constructor
    · intro h
      rw [h]
    · intro h
      cases v
      cases w
      simp only [Value.as_str] at h
      rw [h]
  refine ⟨text_iff, ?_, bytesLexCompare_lt_gt _ _, ?_, bytesLexCompare_lt_iff_lex _ _⟩
  · unfold Value.cmp
    rw [bytesLexCompare_eq_iff]
    constructor
    · intro h
      exact text_iff.mpr (utf8Bytes_inj h)
    · intro h
      rw [text_iff.mp h]
  · exact bytesLexCompare_trans

theorem value_eq_and_order_witness :
    Value.cmp ⟨['a']⟩ ⟨['c']⟩ = .lt :=
  (value_eq_and_order ⟨['a']⟩ ⟨['b']⟩ ⟨['c']⟩).2.2.2.1 (by decide) (by decide)


end PasswordHash
